import Mathlib

set_option maxHeartbeats 1000000

/-!
Verification development for `src/komm/_quantization.py`.

The module defines two quantizers over real signals; we embed them over `ℚ`:

* `ScalarQuantizer` stores validated `levels`/`thresholds` lists and quantizes
  by counting how many thresholds the input strictly exceeds.
* `UniformQuantizer` derives its levels and thresholds from `num_levels`,
  `input_peak` and a mode string, validates them through the same check, and
  replaces the quantization rule by per-mode closed forms.

Python `ValueError` at construction time is embedded as `Option.none`; the
implicit `None` return of `UniformQuantizer.__call__` on an unrecognized
stored mode is embedded as `Option.none` of the call. Scalars versus numpy
1-D arrays are embedded as the two constructors of `NPVal`.
-/

/-- Interleaving built in `ScalarQuantizer.__init__` by
`interleaved[0::2] = levels; interleaved[1::2] = thresholds`.
For `len(thresholds) = len(levels) - 1` this is `v0, t0, v1, t1, ..., v(L-1)`. -/
def interleave : List ℚ → List ℚ → List ℚ
  | [], _ => []
  | v :: _, [] => [v]
  | v :: vs, t :: ts => v :: t :: interleave vs ts

/-- State of a constructed `ScalarQuantizer`: the stored `_levels` and
`_thresholds` lists. -/
structure ScalarQuantizer where
  levels : List ℚ
  thresholds : List ℚ
deriving DecidableEq

/-- Construction check of `ScalarQuantizer.__init__`: the number of thresholds
must be `num_levels - 1`, and the interleaved sequence must equal its
sorted-deduplicated form (`np.array_equal(np.unique(interleaved), interleaved)`),
which for a list means it is strictly increasing, i.e. pairwise `<`.
Returns `none` where the Python raises `ValueError`. -/
def ScalarQuantizer.mk? (levels thresholds : List ℚ) : Option ScalarQuantizer :=
  if thresholds.length + 1 = levels.length ∧
      (interleave levels thresholds).Pairwise (· < ·) then
    some ⟨levels, thresholds⟩
  else none

/-- Elementwise rule of `ScalarQuantizer.__call__`:
`self._levels[np.sum(x > self._thresholds)]`. -/
def ScalarQuantizer.quantizeElem (q : ScalarQuantizer) (x : ℚ) : ℚ :=
  q.levels.getD (q.thresholds.countP fun t => decide (t < x)) 0

/-- A numpy value: a real scalar or a one-dimensional real array. -/
inductive NPVal where
  | scalar : ℚ → NPVal
  | vec : List ℚ → NPVal
deriving DecidableEq

/-- Whole-signal behaviour of `ScalarQuantizer.__call__` on scalars and 1-D
arrays. `np.tile(x, reps=(T, 1)).transpose()` gives shape `(1, T)` for a
scalar input, so the output has shape `(1,)`: a scalar input comes back as a
one-element array; a 1-D input is mapped elementwise. -/
def ScalarQuantizer.call (q : ScalarQuantizer) : NPVal → NPVal
  | .scalar x => .vec [q.quantizeElem x]
  | .vec xs => .vec (xs.map q.quantizeElem)

/-- Closed form of `UniformQuantizer._quantize_mid_riser`:
`delta * np.floor(x / delta + 0.5)`. -/
def closedMidRiser (delta x : ℚ) : ℚ := delta * ((⌊x / delta + 1 / 2⌋ : ℤ) : ℚ)

/-- Closed form of `UniformQuantizer._quantize_mid_tread`:
`delta * (np.floor(x / delta) + 0.5)`. -/
def closedMidTread (delta x : ℚ) : ℚ := delta * (((⌊x / delta⌋ : ℤ) : ℚ) + 1 / 2)

/-- Parameter derivation in `UniformQuantizer.__init__`: the quantization step
and the levels list for each recognized mode string, `none` for any other
string (Python raises `ValueError` there). Python's floor division
`-num_levels // 2` equals `-((L + 1) / 2)` with natural-number division, and
`num_levels // 2` is `L / 2`. -/
def uniformDerived (numLevels : ℕ) (inputPeak : ℚ) (mode : String) : Option (ℚ × List ℚ) :=
  if mode = "unsigned" then
    some (inputPeak / (numLevels : ℚ),
      (List.range numLevels).map fun (i : ℕ) => inputPeak * (i : ℚ) / (numLevels : ℚ))
  else if mode = "mid-riser" then
    some (2 * inputPeak / (numLevels : ℚ),
      (List.range numLevels).map fun (i : ℕ) =>
        inputPeak * (((i : ℤ) - (((numLevels + 1) / 2 : ℕ) : ℤ) : ℤ) : ℚ)
          / (((numLevels / 2 : ℕ) : ℕ) : ℚ))
  else if mode = "mid-tread" then
    some (2 * inputPeak / (numLevels : ℚ),
      (List.range numLevels).map fun (i : ℕ) =>
        inputPeak * (((i : ℤ) - (((numLevels + 1) / 2 : ℕ) : ℤ) : ℤ) : ℚ)
          / (((numLevels / 2 : ℕ) : ℕ) : ℚ) + (2 * inputPeak / (numLevels : ℚ)) / 2)
  else none

/-- State of a constructed `UniformQuantizer`: inherited levels/thresholds plus
`_quantization_step`, `_input_peak` and the stored mode string `_type`. -/
structure UniformQuantizer where
  levels : List ℚ
  thresholds : List ℚ
  quantizationStep : ℚ
  inputPeak : ℚ
  type_ : String
deriving DecidableEq

/-- Construction of `UniformQuantizer.__init__`: derive step and levels from
the mode, take `thresholds = (levels + delta/2)[:-1]`, and validate both lists
through `ScalarQuantizer.__init__`. -/
def UniformQuantizer.mk? (numLevels : ℕ) (inputPeak : ℚ) (mode : String) :
    Option UniformQuantizer :=
  match uniformDerived numLevels inputPeak mode with
  | none => none
  | some (delta, levels) =>
    match ScalarQuantizer.mk? levels ((levels.map (· + delta / 2)).dropLast) with
    | none => none
    | some sq => some ⟨sq.levels, sq.thresholds, delta, inputPeak, mode⟩

/-- Shape-preserving elementwise map: `np.array` conversion followed by the
vectorized arithmetic of the closed-form branches. -/
def mapNP (f : ℚ → ℚ) : NPVal → NPVal
  | .scalar x => .scalar (f x)
  | .vec xs => .vec (xs.map f)

/-- Behaviour of `UniformQuantizer.__call__`: the `'unsigned'` branch returns
the plain scalar `0`; the `'mid-riser'` and `'mid-tread'` branches apply the
closed forms elementwise; on any other stored mode string Python falls through
and returns `None`, embedded as `none`. -/
def UniformQuantizer.call (q : UniformQuantizer) (v : NPVal) : Option NPVal :=
  if q.type_ = "unsigned" then some (.scalar 0)
  else if q.type_ = "mid-riser" then some (mapNP (closedMidRiser q.quantizationStep) v)
  else if q.type_ = "mid-tread" then some (mapNP (closedMidTread q.quantizationStep) v)
  else none

/-- The quantizer of the boundary example: levels `[-1, 0, 1]`, thresholds
`[-0.5, 0.8]`. -/
def sq3 : ScalarQuantizer := ⟨[-1, 0, 1], [-1 / 2, 4 / 5]⟩

/-- The value constructed by `UniformQuantizer(num_levels=8, input_peak=1.0,
mode='mid-riser')`. -/
def uq8 : UniformQuantizer :=
  ⟨[-1, -3 / 4, -1 / 2, -1 / 4, 0, 1 / 4, 1 / 2, 3 / 4],
   [-7 / 8, -5 / 8, -3 / 8, -1 / 8, 1 / 8, 3 / 8, 5 / 8], 1 / 4, 1, "mid-riser"⟩

/-- The value constructed by `UniformQuantizer(num_levels=2, input_peak=1.0,
mode='mid-riser')`. -/
def uq2 : UniformQuantizer := ⟨[-1, 0], [-1 / 2], 1, 1, "mid-riser"⟩

/-- Entry `i` of a mapped range list. -/
theorem getD_map_range (f : ℕ → ℚ) (n i : ℕ) (d : ℚ) (h : i < n) :
    ((List.range n).map f).getD i d = f i := by
  have hlen : i < ((List.range n).map f).length := by simpa using h
  rw [List.getD_eq_get _ _ hlen]
  simp

/-- Dropping the last entry of a mapped range list shortens the range. -/
theorem dropLast_map_range (f : ℕ → ℚ) (n : ℕ) :
    ((List.range (n + 1)).map f).dropLast = (List.range n).map f := by
  rw [List.range_succ, List.map_append]
  simp

/-- A `countP` count is determined by which prefix of positions satisfies the
predicate. -/
theorem countP_eq_of_getD (x : ℚ) :
    ∀ (th : List ℚ) (j : ℕ), j ≤ th.length →
      (∀ i, i < j → th.getD i 0 < x) →
      (∀ i, j ≤ i → i < th.length → ¬ th.getD i 0 < x) →
      th.countP (fun t => decide (t < x)) = j := by
  intro th
  induction th with
  | nil =>
    intro j hj _ _
    simp only [List.length_nil, Nat.le_zero] at hj
    simp [hj]
  | cons t ts ih =>
    intro j hj h1 h2
    rw [List.countP_cons]
    cases j with
    | zero =>
      have ht : ¬ t < x := by simpa using h2 0 (Nat.zero_le _) (by simp)
      have hts : ts.countP (fun t => decide (t < x)) = 0 := by
        apply ih 0 (Nat.zero_le _)
        · intro i hi; omega
        · intro i _ hi
          simpa using h2 (i + 1) (Nat.zero_le _) (by simp; omega)
      simp [hts, ht]
    | succ j' =>
      have ht : t < x := by simpa using h1 0 (Nat.succ_pos _)
      have hts : ts.countP (fun t => decide (t < x)) = j' := by
        apply ih j' (by simpa using hj)
        · intro i hi
          simpa using h1 (i + 1) (by omega)
        · intro i hge hi
          simpa using h2 (i + 1) (by omega) (by simp; omega)
      simp [hts, ht]

/-- An in-range `getD` entry is a member of the list. -/
theorem getD_mem_of_lt (l : List ℚ) (i : ℕ) (h : i < l.length) : l.getD i 0 ∈ l := by
  rw [List.getD_eq_get _ _ h]
  exact l.get_mem _ _

/-- Entries of a strictly increasing list are strictly ordered by position. -/
theorem pairwise_getD_lt (l : List ℚ) (h : l.Pairwise (· < ·)) {i j : ℕ}
    (hij : i < j) (hj : j < l.length) : l.getD i 0 < l.getD j 0 := by
  have hi : i < l.length := lt_trans hij hj
  rw [List.getD_eq_get _ _ hi, List.getD_eq_get _ _ hj]
  exact List.pairwise_iff_get.mp h ⟨i, hi⟩ ⟨j, hj⟩ hij

/-- Entries of a strictly increasing list are weakly ordered by position. -/
theorem pairwise_getD_le (l : List ℚ) (h : l.Pairwise (· < ·)) {i j : ℕ}
    (hij : i ≤ j) (hj : j < l.length) : l.getD i 0 ≤ l.getD j 0 := by
  rcases Nat.lt_or_ge i j with hlt | hge
  · exact le_of_lt (pairwise_getD_lt l h hlt hj)
  · have : i = j := Nat.le_antisymm hij hge
    rw [this]

/-- Both input lists are sublists of their interleaving when the lengths
match. -/
theorem interleave_sublists :
    ∀ (th lv : List ℚ), lv.length = th.length + 1 →
      lv.Sublist (interleave lv th) ∧ th.Sublist (interleave lv th) := by
  intro th
  induction th with
  | nil =>
    intro lv hlen
    match lv, hlen with
    | [v], _ => constructor <;> simp [interleave]
  | cons t ts ih =>
    intro lv hlen
    match lv with
    | v :: vs =>
      have hlen' : vs.length = ts.length + 1 := by simpa using hlen
      obtain ⟨h1, h2⟩ := ih vs hlen'
      simp only [interleave]
      constructor
      · exact (h1.cons t).cons₂ v
      · exact (h2.cons₂ t).cons v

/-- Adjacency facts of a validated interleaving: each level is below the
following threshold and each threshold is below the following level. -/
theorem interleave_adj :
    ∀ (th lv : List ℚ), lv.length = th.length + 1 →
      (interleave lv th).Pairwise (· < ·) →
      ∀ i, i < th.length →
        lv.getD i 0 < th.getD i 0 ∧ th.getD i 0 < lv.getD (i + 1) 0 := by
  intro th
  induction th with
  | nil =>
    intro lv _ _ i hi
    simp at hi
  | cons t ts ih =>
    intro lv hlen hp i hi
    match lv with
    | v :: vs =>
      have hlen' : vs.length = ts.length + 1 := by simpa using hlen
      simp only [interleave] at hp
      rw [List.pairwise_cons] at hp
      obtain ⟨hv, hp⟩ := hp
      rw [List.pairwise_cons] at hp
      obtain ⟨ht, hp⟩ := hp
      cases i with
      | zero =>
        constructor
        · simpa using hv t (by simp)
        · match vs, hlen' with
          | v' :: vs', _ =>
            have hv' : v' ∈ interleave (v' :: vs') ts := by
              cases ts <;> simp [interleave]
            simpa using ht v' hv'
      | succ i' =>
        have := ih vs hlen' hp i' (by simpa using hi)
        simpa using this

/-- Inversion of a successful `ScalarQuantizer` construction. -/
theorem scalar_mk_inv {lv th : List ℚ} {q : ScalarQuantizer}
    (h : ScalarQuantizer.mk? lv th = some q) :
    q.levels = lv ∧ q.thresholds = th ∧ th.length + 1 = lv.length ∧
      (interleave lv th).Pairwise (· < ·) := by
  unfold ScalarQuantizer.mk? at h
  split_ifs at h with hc
  cases h
  exact ⟨rfl, rfl, hc.1, hc.2⟩

/-- The derivation taken by the `'unsigned'` branch. -/
theorem uniformDerived_unsigned (numLevels : ℕ) (p : ℚ) :
    uniformDerived numLevels p "unsigned" =
      some (p / (numLevels : ℚ),
        (List.range numLevels).map fun (i : ℕ) => p * (i : ℚ) / (numLevels : ℚ)) := by
  unfold uniformDerived
  rw [if_pos rfl]

/-- The derivation taken by the `'mid-riser'` branch. -/
theorem uniformDerived_midriser (numLevels : ℕ) (p : ℚ) :
    uniformDerived numLevels p "mid-riser" =
      some (2 * p / (numLevels : ℚ),
        (List.range numLevels).map fun (i : ℕ) =>
          p * (((i : ℤ) - (((numLevels + 1) / 2 : ℕ) : ℤ) : ℤ) : ℚ)
            / (((numLevels / 2 : ℕ) : ℕ) : ℚ)) := by
  unfold uniformDerived
  rw [if_neg (by decide), if_pos rfl]

/-- The derivation taken by the `'mid-tread'` branch. -/
theorem uniformDerived_midtread (numLevels : ℕ) (p : ℚ) :
    uniformDerived numLevels p "mid-tread" =
      some (2 * p / (numLevels : ℚ),
        (List.range numLevels).map fun (i : ℕ) =>
          p * (((i : ℤ) - (((numLevels + 1) / 2 : ℕ) : ℤ) : ℤ) : ℚ)
            / (((numLevels / 2 : ℕ) : ℕ) : ℚ) + (2 * p / (numLevels : ℚ)) / 2) := by
  unfold uniformDerived
  rw [if_neg (by decide), if_neg (by decide), if_pos rfl]

/-- An unrecognized mode string derives nothing. -/
theorem uniformDerived_none (numLevels : ℕ) (p : ℚ) (m : String)
    (h1 : m ≠ "unsigned") (h2 : m ≠ "mid-riser") (h3 : m ≠ "mid-tread") :
    uniformDerived numLevels p m = none := by
  unfold uniformDerived
  rw [if_neg h1, if_neg h2, if_neg h3]

/-- Inversion of a successful `UniformQuantizer` construction. -/
theorem uniform_mk_inv {numLevels : ℕ} {p : ℚ} {m : String} {u : UniformQuantizer}
    (hu : UniformQuantizer.mk? numLevels p m = some u) :
    ∃ d lvs, uniformDerived numLevels p m = some (d, lvs) ∧
      u.levels = lvs ∧ u.thresholds = (lvs.map (· + d / 2)).dropLast ∧
      u.quantizationStep = d ∧ u.inputPeak = p ∧ u.type_ = m ∧
      ScalarQuantizer.mk? lvs ((lvs.map (· + d / 2)).dropLast) =
        some ⟨lvs, (lvs.map (· + d / 2)).dropLast⟩ := by
  unfold UniformQuantizer.mk? at hu
  split at hu
  · cases hu
  · rename_i d lvs hd
    split at hu
    · cases hu
    · rename_i sq hs
      obtain ⟨hsl, hst, _, _⟩ := scalar_mk_inv hs
      have hsq : sq = ⟨lvs, (lvs.map (· + d / 2)).dropLast⟩ := by
        cases sq
        simp only at hsl hst
        rw [hsl, hst]
      cases hu
      exact ⟨d, lvs, hd, hsl, hst, rfl, rfl, rfl, by rw [← hsq]; exact hs⟩

/-- A constructed uniform quantizer stores one of the three mode strings. -/
theorem uniform_type_options {numLevels : ℕ} {p : ℚ} {m : String} {u : UniformQuantizer}
    (hu : UniformQuantizer.mk? numLevels p m = some u) :
    u.type_ = "unsigned" ∨ u.type_ = "mid-riser" ∨ u.type_ = "mid-tread" := by
  obtain ⟨d, lvs, hd, _, _, _, _, hty, _⟩ := uniform_mk_inv hu
  by_contra hc
  push_neg at hc
  obtain ⟨h1, h2, h3⟩ := hc
  rw [hty] at h1 h2 h3
  rw [uniformDerived_none numLevels p m h1 h2 h3] at hd
  cases hd

/-- Unfolding of `__call__` on an unsigned instance. -/
theorem call_type_unsigned {u : UniformQuantizer} (h : u.type_ = "unsigned") (v : NPVal) :
    u.call v = some (.scalar 0) := by
  unfold UniformQuantizer.call
  rw [h, if_pos rfl]

/-- Unfolding of `__call__` on a mid-riser instance. -/
theorem call_type_midriser {u : UniformQuantizer} (h : u.type_ = "mid-riser") (v : NPVal) :
    u.call v = some (mapNP (closedMidRiser u.quantizationStep) v) := by
  unfold UniformQuantizer.call
  rw [h, if_neg (by decide), if_pos rfl]

/-- Unfolding of `__call__` on a mid-tread instance. -/
theorem call_type_midtread {u : UniformQuantizer} (h : u.type_ = "mid-tread") (v : NPVal) :
    u.call v = some (mapNP (closedMidTread u.quantizationStep) v) := by
  unfold UniformQuantizer.call
  rw [h, if_neg (by decide), if_neg (by decide), if_pos rfl]

/-- The mid-riser closed form is monotone in its input for every step value. -/
theorem closedMidRiser_mono {d x₁ x₂ : ℚ} (h : x₁ ≤ x₂) :
    closedMidRiser d x₁ ≤ closedMidRiser d x₂ := by
  unfold closedMidRiser
  rcases lt_trichotomy d 0 with hd | hd | hd
  · have hinv : d⁻¹ < 0 := inv_lt_zero.mpr hd
    have hdiv : x₂ / d ≤ x₁ / d := by
      rw [div_eq_mul_inv, div_eq_mul_inv]
      exact mul_le_mul_of_nonpos_right h (le_of_lt hinv)
    have hfl : ⌊x₂ / d + 1 / 2⌋ ≤ ⌊x₁ / d + 1 / 2⌋ := Int.floor_mono (by linarith)
    have hq : ((⌊x₂ / d + 1 / 2⌋ : ℤ) : ℚ) ≤ ((⌊x₁ / d + 1 / 2⌋ : ℤ) : ℚ) := by
      exact_mod_cast hfl
    exact mul_le_mul_of_nonpos_left hq (le_of_lt hd)
  · rw [hd]
    simp
  · have hdiv : x₁ / d ≤ x₂ / d := (div_le_div_right hd).mpr h
    have hfl : ⌊x₁ / d + 1 / 2⌋ ≤ ⌊x₂ / d + 1 / 2⌋ := Int.floor_mono (by linarith)
    have hq : ((⌊x₁ / d + 1 / 2⌋ : ℤ) : ℚ) ≤ ((⌊x₂ / d + 1 / 2⌋ : ℤ) : ℚ) := by
      exact_mod_cast hfl
    exact mul_le_mul_of_nonneg_left hq (le_of_lt hd)

/-- The mid-tread closed form is monotone in its input for every step value. -/
theorem closedMidTread_mono {d x₁ x₂ : ℚ} (h : x₁ ≤ x₂) :
    closedMidTread d x₁ ≤ closedMidTread d x₂ := by
  unfold closedMidTread
  rcases lt_trichotomy d 0 with hd | hd | hd
  · have hinv : d⁻¹ < 0 := inv_lt_zero.mpr hd
    have hdiv : x₂ / d ≤ x₁ / d := by
      rw [div_eq_mul_inv, div_eq_mul_inv]
      exact mul_le_mul_of_nonpos_right h (le_of_lt hinv)
    have hfl : ⌊x₂ / d⌋ ≤ ⌊x₁ / d⌋ := Int.floor_mono hdiv
    have hq : ((⌊x₂ / d⌋ : ℤ) : ℚ) + 1 / 2 ≤ ((⌊x₁ / d⌋ : ℤ) : ℚ) + 1 / 2 := by
      have : ((⌊x₂ / d⌋ : ℤ) : ℚ) ≤ ((⌊x₁ / d⌋ : ℤ) : ℚ) := by exact_mod_cast hfl
      linarith
    exact mul_le_mul_of_nonpos_left hq (le_of_lt hd)
  · rw [hd]
    simp
  · have hdiv : x₁ / d ≤ x₂ / d := (div_le_div_right hd).mpr h
    have hfl : ⌊x₁ / d⌋ ≤ ⌊x₂ / d⌋ := Int.floor_mono hdiv
    have hq : ((⌊x₁ / d⌋ : ℤ) : ℚ) + 1 / 2 ≤ ((⌊x₂ / d⌋ : ℤ) : ℚ) + 1 / 2 := by
      have : ((⌊x₁ / d⌋ : ℤ) : ℚ) ≤ ((⌊x₂ / d⌋ : ℤ) : ℚ) := by exact_mod_cast hfl
      linarith
    exact mul_le_mul_of_nonneg_left hq (le_of_lt hd)

/-- The floor of an integer plus one half is that integer. -/
theorem floor_int_add_half (k : ℤ) : ⌊((k : ℚ) + 1 / 2)⌋ = k := by
  rw [add_comm, Int.floor_add_int]
  norm_num

/-- The mid-riser closed form is idempotent. -/
theorem closedMidRiser_idem (d x : ℚ) :
    closedMidRiser d (closedMidRiser d x) = closedMidRiser d x := by
  rcases eq_or_ne d 0 with hd | hd
  · rw [hd]
    simp [closedMidRiser]
  · unfold closedMidRiser
    rw [mul_div_cancel_left₀ _ hd, floor_int_add_half]

/-- The mid-tread closed form is idempotent. -/
theorem closedMidTread_idem (d x : ℚ) :
    closedMidTread d (closedMidTread d x) = closedMidTread d x := by
  rcases eq_or_ne d 0 with hd | hd
  · rw [hd]
    simp [closedMidTread]
  · unfold closedMidTread
    rw [mul_div_cancel_left₀ _ hd]
    have : ⌊((⌊x / d⌋ : ℚ) + 1 / 2)⌋ = ⌊x / d⌋ := floor_int_add_half _
    rw [this]

/-- Dropping the last entry of a nonempty mapped range list. -/
theorem dropLast_map_range_pred (f : ℕ → ℚ) (n : ℕ) (h : 1 ≤ n) :
    ((List.range n).map f).dropLast = (List.range (n - 1)).map f := by
  conv_lhs => rw [show n = (n - 1) + 1 by omega]
  exact dropLast_map_range f (n - 1)

/-- The even-count cast of the step: `2p / (2M) = p / M`. -/
theorem even_step_eq (M : ℕ) (p : ℚ) :
    2 * p / ((2 * M : ℕ) : ℚ) = p / (M : ℚ) := by
  push_cast
  rw [mul_div_mul_left p (M : ℚ) two_ne_zero]

/-- Derived fields of a mid-riser uniform quantizer with an even level count
`2M`: step `p/M`, levels `(i - M) · p/M`, thresholds shifted up by half a
step. -/
theorem midriser_fields {M : ℕ} (hM : 1 ≤ M) {p : ℚ} {u : UniformQuantizer}
    (hu : UniformQuantizer.mk? (2 * M) p "mid-riser" = some u) :
    u.quantizationStep = p / (M : ℚ) ∧
    u.levels = (List.range (2 * M)).map
      (fun (i : ℕ) => p / (M : ℚ) * (((i : ℤ) - (M : ℤ) : ℤ) : ℚ)) ∧
    u.thresholds = (List.range (2 * M - 1)).map
      (fun (i : ℕ) => p / (M : ℚ) * (((i : ℤ) - (M : ℤ) : ℤ) : ℚ) + p / (M : ℚ) / 2) ∧
    u.type_ = "mid-riser" := by
  obtain ⟨d, lvs, hd, hlv, hth, hqs, hip, hty, hsmk⟩ := uniform_mk_inv hu
  rw [uniformDerived_midriser] at hd
  simp only [Option.some.injEq, Prod.mk.injEq] at hd
  obtain ⟨hd1, hd2⟩ := hd
  have e1 : ((2 * M + 1) / 2 : ℕ) = M := by omega
  have e2 : ((2 * M) / 2 : ℕ) = M := by omega
  have hstep : d = p / (M : ℚ) := by
    rw [← hd1]
    exact even_step_eq M p
  have hlvs : lvs = (List.range (2 * M)).map
      (fun (i : ℕ) => p / (M : ℚ) * (((i : ℤ) - (M : ℤ) : ℤ) : ℚ)) := by
    rw [← hd2]
    simp only [e1, e2]
    congr 1
    funext i
    rw [mul_div_right_comm]
  subst hstep
  subst hlvs
  refine ⟨hqs, hlv, ?_, hty⟩
  rw [hth, List.map_map, dropLast_map_range_pred _ _ (by omega)]
  rfl

/-- Derived fields of a mid-tread uniform quantizer with an even level count
`2M`: step `p/M`, levels `(i - M) · p/M + p/(2M)`, thresholds one full step
above the corresponding level start. -/
theorem midtread_fields {M : ℕ} (hM : 1 ≤ M) {p : ℚ} {u : UniformQuantizer}
    (hu : UniformQuantizer.mk? (2 * M) p "mid-tread" = some u) :
    u.quantizationStep = p / (M : ℚ) ∧
    u.levels = (List.range (2 * M)).map
      (fun (i : ℕ) => p / (M : ℚ) * (((i : ℤ) - (M : ℤ) : ℤ) : ℚ) + p / (M : ℚ) / 2) ∧
    u.thresholds = (List.range (2 * M - 1)).map
      (fun (i : ℕ) => p / (M : ℚ) * (((i : ℤ) - (M : ℤ) : ℤ) : ℚ) + p / (M : ℚ)) ∧
    u.type_ = "mid-tread" := by
  obtain ⟨d, lvs, hd, hlv, hth, hqs, hip, hty, hsmk⟩ := uniform_mk_inv hu
  rw [uniformDerived_midtread] at hd
  simp only [Option.some.injEq, Prod.mk.injEq] at hd
  obtain ⟨hd1, hd2⟩ := hd
  have e1 : ((2 * M + 1) / 2 : ℕ) = M := by omega
  have e2 : ((2 * M) / 2 : ℕ) = M := by omega
  have hse : 2 * p / ((2 * M : ℕ) : ℚ) = p / (M : ℚ) := even_step_eq M p
  have hstep : d = p / (M : ℚ) := by
    rw [← hd1]
    exact hse
  have hlvs : lvs = (List.range (2 * M)).map
      (fun (i : ℕ) => p / (M : ℚ) * (((i : ℤ) - (M : ℤ) : ℤ) : ℚ) + p / (M : ℚ) / 2) := by
    rw [← hd2]
    simp only [e1, e2]
    congr 1
    funext i
    rw [hse, mul_div_right_comm]
  subst hstep
  subst hlvs
  refine ⟨hqs, hlv, ?_, hty⟩
  rw [hth, List.map_map, dropLast_map_range_pred _ _ (by omega)]
  congr 1
  funext i
  simp only [Function.comp]
  ring

/-- On a mid-riser uniform quantizer with even level count, away from the
stored thresholds and whenever the closed-form output is a stored level, the
closed form agrees with the generic threshold search over the stored lists. -/
theorem midriser_agree {M : ℕ} (hM : 1 ≤ M) {p x : ℚ} (hp : 0 < p)
    {u : UniformQuantizer} (hu : UniformQuantizer.mk? (2 * M) p "mid-riser" = some u)
    (hnth : x ∉ u.thresholds)
    (hin : closedMidRiser u.quantizationStep x ∈ u.levels) :
    closedMidRiser u.quantizationStep x =
      ScalarQuantizer.quantizeElem ⟨u.levels, u.thresholds⟩ x := by
  obtain ⟨hqs, hlv, hthr, _⟩ := midriser_fields hM hu
  have hMq : (0 : ℚ) < (M : ℚ) := by
    have h0 : 0 < M := by omega
    exact_mod_cast h0
  rw [hqs] at hin ⊢
  have hdpos : 0 < p / (M : ℚ) := div_pos hp hMq
  generalize hgen : p / (M : ℚ) = d at hdpos hin hlv hthr ⊢
  unfold closedMidRiser at hin ⊢
  set k : ℤ := ⌊x / d + 1 / 2⌋ with hkdef
  have hfl1 : ((k : ℤ) : ℚ) ≤ x / d + 1 / 2 := Int.floor_le _
  have hfl2 : x / d + 1 / 2 < ((k : ℤ) : ℚ) + 1 := Int.lt_floor_add_one _
  have hxlow : d * ((k : ℚ) - 1 / 2) ≤ x := by
    have h' : (k : ℚ) - 1 / 2 ≤ x / d := by linarith
    have h'' : ((k : ℚ) - 1 / 2) * d ≤ x := (le_div_iff hdpos).mp h'
    linarith [h'', mul_comm d ((k : ℚ) - 1 / 2)]
  have hxhigh : x < d * ((k : ℚ) + 1 / 2) := by
    have h' : x / d < (k : ℚ) + 1 / 2 := by linarith
    have h'' : x < ((k : ℚ) + 1 / 2) * d := (div_lt_iff hdpos).mp h'
    linarith [h'', mul_comm d ((k : ℚ) + 1 / 2)]
  rw [hlv, List.mem_map] at hin
  obtain ⟨i, himem, hieq⟩ := hin
  rw [List.mem_range] at himem
  have hik : ((i : ℤ) - (M : ℤ)) = k := by
    have hcan : (((i : ℤ) - (M : ℤ) : ℤ) : ℚ) = (k : ℚ) :=
      mul_left_cancel₀ (ne_of_gt hdpos) hieq
    exact_mod_cast hcan
  have hi2M : (i : ℤ) < 2 * (M : ℤ) := by exact_mod_cast himem
  have hcount : u.thresholds.countP (fun t => decide (t < x)) = i := by
    rw [hthr]
    apply countP_eq_of_getD x _ i
    · simp only [List.length_map, List.length_range]
      omega
    · intro n hn
      rw [getD_map_range _ _ _ _ (by omega)]
      have hmem : (d * (((n : ℤ) - (M : ℤ) : ℤ) : ℚ) + d / 2) ∈ u.thresholds := by
        rw [hthr]
        exact List.mem_map.mpr ⟨n, List.mem_range.mpr (by omega), rfl⟩
      have hne : d * (((n : ℤ) - (M : ℤ) : ℤ) : ℚ) + d / 2 ≠ x := fun hEq => hnth (hEq ▸ hmem)
      have h1 : ((n : ℤ) - (M : ℤ)) ≤ k - 1 := by
        have hn' : (n : ℤ) < (i : ℤ) := by exact_mod_cast hn
        omega
      have h2 : (((n : ℤ) - (M : ℤ) : ℤ) : ℚ) ≤ ((k - 1 : ℤ) : ℚ) := by exact_mod_cast h1
      have h2' : ((k - 1 : ℤ) : ℚ) = (k : ℚ) - 1 := by push_cast; ring
      have h3 : d * (((n : ℤ) - (M : ℤ) : ℤ) : ℚ) ≤ d * ((k : ℚ) - 1) :=
        mul_le_mul_of_nonneg_left (by rw [← h2']; exact h2) (le_of_lt hdpos)
      have hmid : d * ((k : ℚ) - 1) + d / 2 = d * ((k : ℚ) - 1 / 2) := by ring
      exact lt_of_le_of_ne (by linarith [h3, hmid, hxlow]) hne
    · intro n hge hlen
      simp only [List.length_map, List.length_range] at hlen
      rw [getD_map_range _ _ _ _ hlen]
      have h1 : k ≤ ((n : ℤ) - (M : ℤ)) := by
        have hn' : (i : ℤ) ≤ (n : ℤ) := by exact_mod_cast hge
        omega
      have h2 : ((k : ℤ) : ℚ) ≤ (((n : ℤ) - (M : ℤ) : ℤ) : ℚ) := by exact_mod_cast h1
      have h3 : d * (k : ℚ) ≤ d * (((n : ℤ) - (M : ℤ) : ℤ) : ℚ) :=
        mul_le_mul_of_nonneg_left h2 (le_of_lt hdpos)
      have hmid : d * ((k : ℚ) + 1 / 2) = d * (k : ℚ) + d / 2 := by ring
      exact not_lt.mpr (by linarith [hxhigh, h3, hmid])
  unfold ScalarQuantizer.quantizeElem
  simp only
  rw [hcount, hlv, getD_map_range _ _ _ _ himem, hik]

/-- On a mid-tread uniform quantizer with even level count, away from the
stored thresholds and whenever the closed-form output is a stored level, the
closed form agrees with the generic threshold search over the stored lists. -/
theorem midtread_agree {M : ℕ} (hM : 1 ≤ M) {p x : ℚ} (hp : 0 < p)
    {u : UniformQuantizer} (hu : UniformQuantizer.mk? (2 * M) p "mid-tread" = some u)
    (hnth : x ∉ u.thresholds)
    (hin : closedMidTread u.quantizationStep x ∈ u.levels) :
    closedMidTread u.quantizationStep x =
      ScalarQuantizer.quantizeElem ⟨u.levels, u.thresholds⟩ x := by
  obtain ⟨hqs, hlv, hthr, _⟩ := midtread_fields hM hu
  have hMq : (0 : ℚ) < (M : ℚ) := by
    have h0 : 0 < M := by omega
    exact_mod_cast h0
  rw [hqs] at hin ⊢
  have hdpos : 0 < p / (M : ℚ) := div_pos hp hMq
  generalize hgen : p / (M : ℚ) = d at hdpos hin hlv hthr ⊢
  unfold closedMidTread at hin ⊢
  set k : ℤ := ⌊x / d⌋ with hkdef
  have hfl1 : ((k : ℤ) : ℚ) ≤ x / d := Int.floor_le _
  have hfl2 : x / d < ((k : ℤ) : ℚ) + 1 := Int.lt_floor_add_one _
  have hxlow : d * (k : ℚ) ≤ x := by
    have h'' : (k : ℚ) * d ≤ x := (le_div_iff hdpos).mp hfl1
    linarith [h'', mul_comm d (k : ℚ)]
  have hxhigh : x < d * ((k : ℚ) + 1) := by
    have h'' : x < ((k : ℚ) + 1) * d := (div_lt_iff hdpos).mp hfl2
    linarith [h'', mul_comm d ((k : ℚ) + 1)]
  rw [hlv, List.mem_map] at hin
  obtain ⟨i, himem, hieq⟩ := hin
  rw [List.mem_range] at himem
  have hik : ((i : ℤ) - (M : ℤ)) = k := by
    have hstrip : d * (((i : ℤ) - (M : ℤ) : ℤ) : ℚ) = d * (k : ℚ) := by
      have hexp : d * ((k : ℚ) + 1 / 2) = d * (k : ℚ) + d / 2 := by ring
      linarith [hieq, hexp]
    have hcan : (((i : ℤ) - (M : ℤ) : ℤ) : ℚ) = (k : ℚ) :=
      mul_left_cancel₀ (ne_of_gt hdpos) hstrip
    exact_mod_cast hcan
  have hi2M : (i : ℤ) < 2 * (M : ℤ) := by exact_mod_cast himem
  have hcount : u.thresholds.countP (fun t => decide (t < x)) = i := by
    rw [hthr]
    apply countP_eq_of_getD x _ i
    · simp only [List.length_map, List.length_range]
      omega
    · intro n hn
      rw [getD_map_range _ _ _ _ (by omega)]
      have hmem : (d * (((n : ℤ) - (M : ℤ) : ℤ) : ℚ) + d) ∈ u.thresholds := by
        rw [hthr]
        exact List.mem_map.mpr ⟨n, List.mem_range.mpr (by omega), rfl⟩
      have hne : d * (((n : ℤ) - (M : ℤ) : ℤ) : ℚ) + d ≠ x := fun hEq => hnth (hEq ▸ hmem)
      have h1 : ((n : ℤ) - (M : ℤ)) ≤ k - 1 := by
        have hn' : (n : ℤ) < (i : ℤ) := by exact_mod_cast hn
        omega
      have h2 : (((n : ℤ) - (M : ℤ) : ℤ) : ℚ) ≤ ((k - 1 : ℤ) : ℚ) := by exact_mod_cast h1
      have h2' : ((k - 1 : ℤ) : ℚ) = (k : ℚ) - 1 := by push_cast; ring
      have h3 : d * (((n : ℤ) - (M : ℤ) : ℤ) : ℚ) ≤ d * ((k : ℚ) - 1) :=
        mul_le_mul_of_nonneg_left (by rw [← h2']; exact h2) (le_of_lt hdpos)
      have hmid : d * ((k : ℚ) - 1) + d = d * (k : ℚ) := by ring
      exact lt_of_le_of_ne (by linarith [h3, hmid, hxlow]) hne
    · intro n hge hlen
      simp only [List.length_map, List.length_range] at hlen
      rw [getD_map_range _ _ _ _ hlen]
      have h1 : k ≤ ((n : ℤ) - (M : ℤ)) := by
        have hn' : (i : ℤ) ≤ (n : ℤ) := by exact_mod_cast hge
        omega
      have h2 : ((k : ℤ) : ℚ) ≤ (((n : ℤ) - (M : ℤ) : ℤ) : ℚ) := by exact_mod_cast h1
      have h3 : d * (k : ℚ) ≤ d * (((n : ℤ) - (M : ℤ) : ℤ) : ℚ) :=
        mul_le_mul_of_nonneg_left h2 (le_of_lt hdpos)
      have hmid : d * ((k : ℚ) + 1) = d * (k : ℚ) + d := by ring
      exact not_lt.mpr (by linarith [hxhigh, h3, hmid])
  unfold ScalarQuantizer.quantizeElem
  simp only
  rw [hcount, hlv, getD_map_range _ _ _ _ himem, hik]
  ring

/-- C1: the claim states that the unsigned-mode `UniformQuantizer.__call__`
returns the same result as the generic `ScalarQuantizer` threshold search over
its own derived levels and thresholds. The code instead returns the constant
scalar `0`: on `UniformQuantizer(num_levels=4, input_peak=1, mode='unsigned')`
at input `x = 9/10` the call yields `0` while the generic search over the same
stored lists yields `3/4`. -/
theorem C1_unsigned_branch_constant_zero :
    (UniformQuantizer.mk? 4 1 "unsigned").map
      (fun u => (u.call (.scalar (9 / 10)),
        ScalarQuantizer.quantizeElem ⟨u.levels, u.thresholds⟩ (9 / 10))) =
      some (some (.scalar 0), 3 / 4) ∧ (0 : ℚ) ≠ 3 / 4 := by
  constructor
  · with_unfolding_all decide
  · norm_num

/-- C3: the claim (and the class docstring) state the rule `y = v_i` iff
`t_i ≤ x < t_(i+1)`, so an input equal to a stored threshold should map to the
higher adjacent level, giving `quantize(-0.5) = 0` and `quantize(0.8) = 1` for
levels `[-1, 0, 1]` and thresholds `[-0.5, 0.8]`. The code counts thresholds
with a strict `x > t`, so inputs exactly at a threshold map to the lower
level: the four probe inputs evaluate to `-1, 0, -1, 0` instead of the claimed
`0, 1, -1, 0`. -/
theorem C3_threshold_maps_to_lower_level :
    (ScalarQuantizer.mk? [-1, 0, 1] [-1 / 2, 4 / 5]).map
      (fun q => (q.quantizeElem (-1 / 2), q.quantizeElem (4 / 5),
        q.quantizeElem (-51 / 100), q.quantizeElem (79 / 100))) =
      some (-1, 0, -1, 0) ∧ (-1 : ℚ) ≠ 0 ∧ (0 : ℚ) ≠ 1 := by
  refine ⟨?_, ?_, ?_⟩
  · with_unfolding_all decide
  · norm_num
  · norm_num

/-- C4: `ScalarQuantizer` construction succeeds, storing the two sequences
unchanged, exactly when the number of thresholds is one less than the number
of levels and the interleaved sequence is strictly increasing; otherwise it
raises `ConfigurationError` (embedded as `none`). -/
theorem C4_construction_iff (lv th : List ℚ) :
    (∃ q, ScalarQuantizer.mk? lv th = some q ∧ q.levels = lv ∧ q.thresholds = th) ↔
      (th.length + 1 = lv.length ∧ (interleave lv th).Pairwise (· < ·)) := by
  constructor
  · rintro ⟨q, hq, _, _⟩
    exact (scalar_mk_inv hq).2.2
  · intro h
    refine ⟨⟨lv, th⟩, ?_, rfl, rfl⟩
    unfold ScalarQuantizer.mk?
    rw [if_pos h]

/-- C5: derived parameters of `UniformQuantizer`: unsigned mode gives step
`p/L` and levels `p·i/L`; with an even level count `L = 2M`, mid-riser gives
step `2p/L` and levels `p·k/M` for `k = -M … M-1`, mid-tread shifts each of
those by half a step; every constructed instance has thresholds
`levels[i] + step/2` for `i = 0 … L-2`; and the `num_levels=8, input_peak=1`
mid-riser instance has the concrete levels and thresholds of the claim. -/
theorem C5_uniform_derivation (L M : ℕ) (p : ℚ) (hL : 1 ≤ L) (hM : 1 ≤ M) :
    uniformDerived L p "unsigned" =
      some (p / (L : ℚ), (List.range L).map fun (i : ℕ) => p * (i : ℚ) / (L : ℚ)) ∧
    uniformDerived (2 * M) p "mid-riser" =
      some (2 * p / ((2 * M : ℕ) : ℚ), (List.range (2 * M)).map
        fun (i : ℕ) => p * (((i : ℤ) - (M : ℤ) : ℤ) : ℚ) / (M : ℚ)) ∧
    uniformDerived (2 * M) p "mid-tread" =
      some (2 * p / ((2 * M : ℕ) : ℚ), (List.range (2 * M)).map
        fun (i : ℕ) => p * (((i : ℤ) - (M : ℤ) : ℤ) : ℚ) / (M : ℚ)
          + (2 * p / ((2 * M : ℕ) : ℚ)) / 2) ∧
    (∀ (numLevels : ℕ) (peak : ℚ) (m : String) (u : UniformQuantizer),
      UniformQuantizer.mk? numLevels peak m = some u →
      u.thresholds = (u.levels.map (· + u.quantizationStep / 2)).dropLast) ∧
    (UniformQuantizer.mk? 8 1 "mid-riser").map (fun u => (u.levels, u.thresholds)) =
      some ([-1, -3 / 4, -1 / 2, -1 / 4, 0, 1 / 4, 1 / 2, 3 / 4],
        [-7 / 8, -5 / 8, -3 / 8, -1 / 8, 1 / 8, 3 / 8, 5 / 8]) := by
  have e1 : ((2 * M + 1) / 2 : ℕ) = M := by omega
  have e2 : ((2 * M) / 2 : ℕ) = M := by omega
  refine ⟨uniformDerived_unsigned L p, ?_, ?_, ?_, ?_⟩
  · rw [uniformDerived_midriser]
    simp only [e1, e2]
  · rw [uniformDerived_midtread]
    simp only [e1, e2]
  · intro numLevels peak m u hu
    obtain ⟨d, lvs, hd, hlv, hth, hqs, _, _, _⟩ := uniform_mk_inv hu
    rw [hlv, hth, hqs]
  · with_unfolding_all decide

/-- C5 witness: the derivation facts instantiated at `L = 2`, `M = 1`,
`p = 1`. -/
theorem C5_uniform_derivation_witness :
    uniformDerived 2 1 "unsigned" =
      some (1 / (2 : ℚ), (List.range 2).map fun (i : ℕ) => 1 * (i : ℚ) / (2 : ℚ)) ∧
    uniformDerived (2 * 1) 1 "mid-riser" =
      some (2 * 1 / ((2 * 1 : ℕ) : ℚ), (List.range (2 * 1)).map
        fun (i : ℕ) => 1 * (((i : ℤ) - (1 : ℤ) : ℤ) : ℚ) / ((1 : ℕ) : ℚ)) ∧
    uniformDerived (2 * 1) 1 "mid-tread" =
      some (2 * 1 / ((2 * 1 : ℕ) : ℚ), (List.range (2 * 1)).map
        fun (i : ℕ) => 1 * (((i : ℤ) - (1 : ℤ) : ℤ) : ℚ) / ((1 : ℕ) : ℚ)
          + (2 * 1 / ((2 * 1 : ℕ) : ℚ)) / 2) ∧
    (∀ (numLevels : ℕ) (peak : ℚ) (m : String) (u : UniformQuantizer),
      UniformQuantizer.mk? numLevels peak m = some u →
      u.thresholds = (u.levels.map (· + u.quantizationStep / 2)).dropLast) ∧
    (UniformQuantizer.mk? 8 1 "mid-riser").map (fun u => (u.levels, u.thresholds)) =
      some ([-1, -3 / 4, -1 / 2, -1 / 4, 0, 1 / 4, 1 / 2, 3 / 4],
        [-7 / 8, -5 / 8, -3 / 8, -1 / 8, 1 / 8, 3 / 8, 5 / 8]) :=
  C5_uniform_derivation 2 1 1 (by decide) (by decide)

/-- C2 counterexample: the claim asserts closed-form/search agreement for
every real input, but the closed form does not clamp: on
`UniformQuantizer(num_levels=4, input_peak=1, mode='mid-riser')` at `x = 2`
the closed form gives `2` while the generic search over the derived lists
gives the top level `1/2`. -/
theorem C2_out_of_range_counterexample :
    (UniformQuantizer.mk? 4 1 "mid-riser").map
      (fun u => (u.call (.scalar 2),
        ScalarQuantizer.quantizeElem ⟨u.levels, u.thresholds⟩ 2)) =
      some (some (.scalar 2), 1 / 2) ∧ (2 : ℚ) ≠ 1 / 2 := by
  constructor
  · with_unfolding_all decide
  · norm_num

/-- C10 counterexample: with an odd level count the level grid is not aligned
with the step: `UniformQuantizer(num_levels=3, input_peak=1, mode='mid-riser')`
has step `2/3` and levels `[-2, -1, 0]`, and the input `x = -2` of magnitude
`2 > input_peak + step = 5/3` is quantized by the closed form to `-2`, which
is an element of the levels list, contradicting the claim. -/
theorem C10_no_clamp_counterexample :
    (UniformQuantizer.mk? 3 1 "mid-riser").map
      (fun u => (u.quantizationStep, u.levels, u.call (.scalar (-2)))) =
      some (2 / 3, ([-2, -1, 0] : List ℚ), some (.scalar (-2))) ∧
    (1 : ℚ) + 2 / 3 < |(-2 : ℚ)| ∧ ((-2 : ℚ) ∈ ([-2, -1, 0] : List ℚ)) := by
  refine ⟨?_, ?_, ?_⟩
  · with_unfolding_all decide
  · rw [abs_of_nonpos (by norm_num)]
    norm_num
  · simp

/-- C8: for a positive level count, `UniformQuantizer` construction fails on
any unrecognized mode string; construction fails exactly when the mode is
unrecognized or the derived lists fail the generic validation; and a
constructed quantizer's call operation always produces a scalar output for a
scalar input (it is total). In the Python source the only raised exception in
these paths is the construction-time `ValueError`. -/
theorem C8_construction_errors (L : ℕ) (hL : 1 ≤ L) (p : ℚ) (m : String) :
    ((m ≠ "unsigned" ∧ m ≠ "mid-riser" ∧ m ≠ "mid-tread") →
      UniformQuantizer.mk? L p m = none) ∧
    (UniformQuantizer.mk? L p m = none ↔
      ((m ≠ "unsigned" ∧ m ≠ "mid-riser" ∧ m ≠ "mid-tread") ∨
        ∃ d lvs, uniformDerived L p m = some (d, lvs) ∧
          ScalarQuantizer.mk? lvs ((lvs.map (· + d / 2)).dropLast) = none)) ∧
    (∀ u, UniformQuantizer.mk? L p m = some u →
      ∀ x : ℚ, ∃ y : ℚ, u.call (.scalar x) = some (.scalar y)) := by
  have hbad : (m ≠ "unsigned" ∧ m ≠ "mid-riser" ∧ m ≠ "mid-tread") →
      UniformQuantizer.mk? L p m = none := by
    rintro ⟨h1, h2, h3⟩
    unfold UniformQuantizer.mk?
    rw [uniformDerived_none L p m h1 h2 h3]
  refine ⟨hbad, ⟨?_, ?_⟩, ?_⟩
  · intro hnone
    by_cases hrec : m ≠ "unsigned" ∧ m ≠ "mid-riser" ∧ m ≠ "mid-tread"
    · exact Or.inl hrec
    · right
      unfold UniformQuantizer.mk? at hnone
      split at hnone
      · rename_i hde
        exfalso
        apply hrec
        refine ⟨?_, ?_, ?_⟩ <;> intro hEq <;> subst hEq
        · rw [uniformDerived_unsigned] at hde
          cases hde
        · rw [uniformDerived_midriser] at hde
          cases hde
        · rw [uniformDerived_midtread] at hde
          cases hde
      · rename_i d lvs hde
        refine ⟨d, lvs, hde, ?_⟩
        split at hnone
        · rename_i hsc
          exact hsc
        · rename_i sq hsc
          cases hnone
  · intro h
    rcases h with hb | ⟨d, lvs, hd, hsc⟩
    · exact hbad hb
    · unfold UniformQuantizer.mk?
      split
      · rfl
      · rename_i d' lvs' hde
        rw [hde] at hd
        simp only [Option.some.injEq, Prod.mk.injEq] at hd
        obtain ⟨hd1, hd2⟩ := hd
        subst hd1
        subst hd2
        split
        · rfl
        · rename_i sq hsc'
          rw [hsc'] at hsc
          cases hsc
  · intro u hu x
    rcases uniform_type_options hu with hty | hty | hty
    · exact ⟨0, call_type_unsigned hty _⟩
    · exact ⟨closedMidRiser u.quantizationStep x, by rw [call_type_midriser hty]; rfl⟩
    · exact ⟨closedMidTread u.quantizationStep x, by rw [call_type_midtread hty]; rfl⟩

/-- C8 witness: the error characterization instantiated at `L = 1`, `p = 1`
and the unrecognized mode string `'bogus'`. -/
theorem C8_construction_errors_witness :
    ((( "bogus" : String) ≠ "unsigned" ∧ ( "bogus" : String) ≠ "mid-riser" ∧
        ( "bogus" : String) ≠ "mid-tread") →
      UniformQuantizer.mk? 1 1 "bogus" = none) ∧
    (UniformQuantizer.mk? 1 1 "bogus" = none ↔
      ((( "bogus" : String) ≠ "unsigned" ∧ ( "bogus" : String) ≠ "mid-riser" ∧
          ( "bogus" : String) ≠ "mid-tread") ∨
        ∃ d lvs, uniformDerived 1 1 "bogus" = some (d, lvs) ∧
          ScalarQuantizer.mk? lvs ((lvs.map (· + d / 2)).dropLast) = none)) ∧
    (∀ u, UniformQuantizer.mk? 1 1 "bogus" = some u →
      ∀ x : ℚ, ∃ y : ℚ, u.call (.scalar x) = some (.scalar y)) :=
  C8_construction_errors 1 (by decide) 1 "bogus"

/-- C9 counterexample: quantization is not shape-preserving. A scalar input to
a generic `ScalarQuantizer` comes back as a one-element array, and an array
input to an unsigned `UniformQuantizer` comes back as the plain scalar `0`. -/
theorem C9_shape_counterexample :
    (ScalarQuantizer.mk? [-1, 0, 1] [-1 / 2, 4 / 5]).map (fun q => q.call (.scalar 0)) =
      some (.vec [0]) ∧
    (UniformQuantizer.mk? 4 1 "unsigned").map (fun u => u.call (.vec [1 / 10, 9 / 10])) =
      some (some (.scalar 0)) ∧
    NPVal.vec [0] ≠ NPVal.scalar 0 := by
  refine ⟨?_, ?_, ?_⟩ <;> with_unfolding_all decide

/-- C9 amended: array inputs are quantized elementwise with the length
preserved by both quantizers, and the mid-riser/mid-tread closed forms keep a
scalar input scalar; but a scalar input to the generic quantizer returns a
one-element array, and the unsigned uniform quantizer returns the scalar `0`
for every input. -/
theorem C9_shape_behaviour (lv th : List ℚ) (q : ScalarQuantizer)
    (hq : ScalarQuantizer.mk? lv th = some q) (L : ℕ) (p : ℚ) (m : String)
    (u : UniformQuantizer) (hu : UniformQuantizer.mk? L p m = some u)
    (x : ℚ) (xs : List ℚ) :
    q.call (.vec xs) = .vec (xs.map q.quantizeElem) ∧
    (xs.map q.quantizeElem).length = xs.length ∧
    q.call (.scalar x) = .vec [q.quantizeElem x] ∧
    ((m = "mid-riser" ∨ m = "mid-tread") →
      (∃ y, u.call (.scalar x) = some (.scalar y)) ∧
      ∃ ys, u.call (.vec xs) = some (.vec ys) ∧ ys.length = xs.length) ∧
    (m = "unsigned" → u.call (.vec xs) = some (.scalar 0)) := by
  obtain ⟨d, lvs, _, _, _, _, _, hty, _⟩ := uniform_mk_inv hu
  refine ⟨rfl, List.length_map xs _, rfl, ?_, ?_⟩
  · intro hm
    rcases hm with hm | hm
    · have hmode : u.type_ = "mid-riser" := hty.trans hm
      constructor
      · exact ⟨closedMidRiser u.quantizationStep x, by rw [call_type_midriser hmode]; rfl⟩
      · refine ⟨xs.map (closedMidRiser u.quantizationStep), ?_, List.length_map xs _⟩
        rw [call_type_midriser hmode]
        rfl
    · have hmode : u.type_ = "mid-tread" := hty.trans hm
      constructor
      · exact ⟨closedMidTread u.quantizationStep x, by rw [call_type_midtread hmode]; rfl⟩
      · refine ⟨xs.map (closedMidTread u.quantizationStep), ?_, List.length_map xs _⟩
        rw [call_type_midtread hmode]
        rfl
  · intro hm
    exact call_type_unsigned (hty.trans hm) _

/-- C9 witness: the shape behaviour instantiated on the concrete boundary
quantizer and the eight-level mid-riser quantizer, with scalar input `1/2`
and array input `[0, 2]`. -/
theorem C9_shape_behaviour_witness :
    sq3.call (.vec [0, 2]) = .vec (([0, 2] : List ℚ).map sq3.quantizeElem) ∧
    (([0, 2] : List ℚ).map sq3.quantizeElem).length = ([0, 2] : List ℚ).length ∧
    sq3.call (.scalar (1 / 2)) = .vec [sq3.quantizeElem (1 / 2)] ∧
    ((( "mid-riser" : String) = "mid-riser" ∨ ( "mid-riser" : String) = "mid-tread") →
      (∃ y, uq8.call (.scalar (1 / 2)) = some (.scalar y)) ∧
      ∃ ys, uq8.call (.vec [0, 2]) = some (.vec ys) ∧
        ys.length = ([0, 2] : List ℚ).length) ∧
    (( "mid-riser" : String) = "unsigned" → uq8.call (.vec [0, 2]) = some (.scalar 0)) :=
  C9_shape_behaviour [-1, 0, 1] [-1 / 2, 4 / 5] sq3 (by with_unfolding_all decide)
    8 1 "mid-riser" uq8 (by with_unfolding_all decide) (1 / 2) [0, 2]

/-- C6: quantization is monotone non-decreasing: for any validly constructed
generic quantizer the threshold search is monotone, and for any validly
constructed uniform quantizer (in each of its three modes) the call operation
is monotone on scalar inputs. -/
theorem C6_monotone (x₁ x₂ : ℚ) (hx : x₁ ≤ x₂) (lv th : List ℚ)
    (q : ScalarQuantizer) (hq : ScalarQuantizer.mk? lv th = some q)
    (L : ℕ) (p : ℚ) (m : String) (u : UniformQuantizer)
    (hu : UniformQuantizer.mk? L p m = some u) :
    q.quantizeElem x₁ ≤ q.quantizeElem x₂ ∧
    (∀ y₁ y₂, u.call (.scalar x₁) = some (.scalar y₁) →
      u.call (.scalar x₂) = some (.scalar y₂) → y₁ ≤ y₂) := by
  constructor
  · obtain ⟨hql, hqt, hlen, hpair⟩ := scalar_mk_inv hq
    unfold ScalarQuantizer.quantizeElem
    have hmono : (q.thresholds.countP fun t => decide (t < x₁)) ≤
        (q.thresholds.countP fun t => decide (t < x₂)) := by
      apply List.countP_mono_left
      intro a _ ha
      simpa using lt_of_lt_of_le (by simpa using ha) hx
    apply pairwise_getD_le
    · rw [hql]
      exact hpair.sublist (interleave_sublists th lv (by omega)).1
    · exact hmono
    · have h1 : (q.thresholds.countP fun t => decide (t < x₂)) ≤ q.thresholds.length :=
        List.countP_le_length _
      have h2 : q.thresholds.length = th.length := by rw [hqt]
      have h3 : q.levels.length = lv.length := by rw [hql]
      omega
  · intro y₁ y₂ h1 h2
    rcases uniform_type_options hu with hty | hty | hty
    · rw [call_type_unsigned hty] at h1 h2
      simp only [Option.some.injEq, NPVal.scalar.injEq] at h1 h2
      rw [← h1, ← h2]
    · rw [call_type_midriser hty] at h1 h2
      simp only [mapNP, Option.some.injEq, NPVal.scalar.injEq] at h1 h2
      rw [← h1, ← h2]
      exact closedMidRiser_mono hx
    · rw [call_type_midtread hty] at h1 h2
      simp only [mapNP, Option.some.injEq, NPVal.scalar.injEq] at h1 h2
      rw [← h1, ← h2]
      exact closedMidTread_mono hx

/-- C6 witness: monotonicity instantiated at `x₁ = 0 ≤ x₂ = 1` on the concrete
boundary quantizer and the eight-level mid-riser quantizer. -/
theorem C6_monotone_witness :
    sq3.quantizeElem 0 ≤ sq3.quantizeElem 1 ∧
    (∀ y₁ y₂, uq8.call (.scalar 0) = some (.scalar y₁) →
      uq8.call (.scalar 1) = some (.scalar y₂) → y₁ ≤ y₂) :=
  C6_monotone 0 1 (by norm_num) [-1, 0, 1] [-1 / 2, 4 / 5] sq3
    (by with_unfolding_all decide) 8 1 "mid-riser" uq8 (by with_unfolding_all decide)

/-- C7: quantization is idempotent: re-quantizing the output of any validly
constructed generic quantizer returns it unchanged, and re-feeding the output
of any validly constructed uniform quantizer's call operation (in each of its
three modes) returns it unchanged. -/
theorem C7_idempotent (x : ℚ) (lv th : List ℚ) (q : ScalarQuantizer)
    (hq : ScalarQuantizer.mk? lv th = some q) (L : ℕ) (p : ℚ) (m : String)
    (u : UniformQuantizer) (hu : UniformQuantizer.mk? L p m = some u) :
    q.quantizeElem (q.quantizeElem x) = q.quantizeElem x ∧
    (∀ v, u.call (.scalar x) = some v → u.call v = some v) := by
  constructor
  · obtain ⟨hql, hqt, hlen, hpair⟩ := scalar_mk_inv hq
    subst hql
    subst hqt
    have hlvp : q.levels.Pairwise (· < ·) :=
      hpair.sublist (interleave_sublists _ _ (by omega)).1
    have hthp : q.thresholds.Pairwise (· < ·) :=
      hpair.sublist (interleave_sublists _ _ (by omega)).2
    have hadj := interleave_adj q.thresholds q.levels (by omega) hpair
    unfold ScalarQuantizer.quantizeElem
    set c := q.thresholds.countP (fun t => decide (t < x)) with hc
    have hcle : c ≤ q.thresholds.length := List.countP_le_length _
    have hclt : c < q.levels.length := by omega
    have hcount2 : q.thresholds.countP
        (fun t => decide (t < q.levels.getD c 0)) = c := by
      apply countP_eq_of_getD _ _ c hcle
      · intro n hn
        have h1 := (hadj n (by omega)).2
        have h2 : q.levels.getD (n + 1) 0 ≤ q.levels.getD c 0 :=
          pairwise_getD_le _ hlvp (by omega) hclt
        linarith
      · intro n hge hnlt
        have h1 := (hadj c (by omega)).1
        have h2 : q.thresholds.getD c 0 ≤ q.thresholds.getD n 0 :=
          pairwise_getD_le _ hthp hge hnlt
        exact not_lt.mpr (by linarith)
    rw [hcount2]
  · intro v hv
    rcases uniform_type_options hu with hty | hty | hty
    · rw [call_type_unsigned hty] at hv
      simp only [Option.some.injEq] at hv
      rw [← hv]
      exact call_type_unsigned hty _
    · rw [call_type_midriser hty] at hv
      simp only [Option.some.injEq] at hv
      rw [← hv]
      show u.call (.scalar (closedMidRiser u.quantizationStep x)) = _
      rw [call_type_midriser hty]
      show _ = some (NPVal.scalar (closedMidRiser u.quantizationStep x))
      rw [show mapNP (closedMidRiser u.quantizationStep)
          (NPVal.scalar (closedMidRiser u.quantizationStep x)) =
          NPVal.scalar (closedMidRiser u.quantizationStep
            (closedMidRiser u.quantizationStep x)) from rfl]
      rw [closedMidRiser_idem]
    · rw [call_type_midtread hty] at hv
      simp only [Option.some.injEq] at hv
      rw [← hv]
      show u.call (.scalar (closedMidTread u.quantizationStep x)) = _
      rw [call_type_midtread hty]
      show _ = some (NPVal.scalar (closedMidTread u.quantizationStep x))
      rw [show mapNP (closedMidTread u.quantizationStep)
          (NPVal.scalar (closedMidTread u.quantizationStep x)) =
          NPVal.scalar (closedMidTread u.quantizationStep
            (closedMidTread u.quantizationStep x)) from rfl]
      rw [closedMidTread_idem]

/-- C7 witness: idempotence instantiated at `x = 7/3` on the concrete
boundary quantizer and the eight-level mid-riser quantizer. -/
theorem C7_idempotent_witness :
    sq3.quantizeElem (sq3.quantizeElem (7 / 3)) = sq3.quantizeElem (7 / 3) ∧
    (∀ v, uq8.call (.scalar (7 / 3)) = some v → uq8.call v = some v) :=
  C7_idempotent (7 / 3) [-1, 0, 1] [-1 / 2, 4 / 5] sq3
    (by with_unfolding_all decide) 8 1 "mid-riser" uq8 (by with_unfolding_all decide)

/-- C2 amended: for an even level count `2M`, positive input peak, and mode
mid-riser or mid-tread, the closed-form call agrees with the generic threshold
search over the quantizer's own derived levels and thresholds for every input
that is not exactly a stored threshold and whose closed-form output is one of
the stored levels (in particular for inputs inside the quantizer range). -/
theorem C2_closed_form_matches_search (M : ℕ) (hM : 1 ≤ M) (p x : ℚ) (hp : 0 < p)
    (m : String) (hm : m = "mid-riser" ∨ m = "mid-tread") (u : UniformQuantizer)
    (hu : UniformQuantizer.mk? (2 * M) p m = some u)
    (hnth : x ∉ u.thresholds)
    (hin : ∀ y, u.call (.scalar x) = some (.scalar y) → y ∈ u.levels) :
    u.call (.scalar x) =
      some (.scalar (ScalarQuantizer.quantizeElem ⟨u.levels, u.thresholds⟩ x)) := by
  rcases hm with hm | hm
  · subst hm
    have hty : u.type_ = "mid-riser" := (midriser_fields hM hu).2.2.2
    have hyin : closedMidRiser u.quantizationStep x ∈ u.levels := by
      apply hin
      rw [call_type_midriser hty]
      rfl
    rw [call_type_midriser hty]
    show some (NPVal.scalar (closedMidRiser u.quantizationStep x)) = _
    rw [midriser_agree hM hp hu hnth hyin]
  · subst hm
    have hty : u.type_ = "mid-tread" := (midtread_fields hM hu).2.2.2
    have hyin : closedMidTread u.quantizationStep x ∈ u.levels := by
      apply hin
      rw [call_type_midtread hty]
      rfl
    rw [call_type_midtread hty]
    show some (NPVal.scalar (closedMidTread u.quantizationStep x)) = _
    rw [midtread_agree hM hp hu hnth hyin]

/-- C2 witness: agreement of the two algorithms instantiated on the
eight-level mid-riser quantizer at the in-range off-threshold input
`x = 1/10`. -/
theorem C2_closed_form_matches_search_witness :
    uq8.call (.scalar (1 / 10)) =
      some (.scalar (ScalarQuantizer.quantizeElem ⟨uq8.levels, uq8.thresholds⟩ (1 / 10))) :=
  C2_closed_form_matches_search 4 (by decide) 1 (1 / 10) (by norm_num) "mid-riser"
    (Or.inl rfl) uq8 (by with_unfolding_all decide) (by with_unfolding_all decide)
    (by
      intro y hy
      have h0 : uq8.call (.scalar (1 / 10)) = some (.scalar 0) := by
        with_unfolding_all decide
      rw [h0] at hy
      simp only [Option.some.injEq, NPVal.scalar.injEq] at hy
      rw [← hy]
      with_unfolding_all decide)

/-- C10 amended: for an even level count `2M`, positive input peak, and mode
mid-riser or mid-tread, the closed form applies its formula without clamping,
so every input of magnitude greater than `input_peak + step` produces an
output that is not an element of the stored levels; the generic threshold
search, by contrast, always returns an element of the stored levels. -/
theorem C10_closed_form_not_clamped (M : ℕ) (hM : 1 ≤ M) (p x : ℚ) (hp : 0 < p)
    (m : String) (hm : m = "mid-riser" ∨ m = "mid-tread") (u : UniformQuantizer)
    (hu : UniformQuantizer.mk? (2 * M) p m = some u)
    (hx : p + u.quantizationStep < |x|) :
    (∀ y, u.call (.scalar x) = some (.scalar y) → y ∉ u.levels) ∧
    (∀ (lv th : List ℚ) (q : ScalarQuantizer), ScalarQuantizer.mk? lv th = some q →
      ∀ z : ℚ, q.quantizeElem z ∈ q.levels) := by
  constructor
  · have hMq : (0 : ℚ) < (M : ℚ) := by
      have h0 : 0 < M := by omega
      exact_mod_cast h0
    have hdpos : 0 < p / (M : ℚ) := div_pos hp hMq
    have hpdM : p = p / (M : ℚ) * (M : ℚ) := (div_mul_cancel₀ p (ne_of_gt hMq)).symm
    rcases hm with hm | hm
    · subst hm
      obtain ⟨hqs, hlv, hthr, hty⟩ := midriser_fields hM hu
      intro y hy hmem
      rw [call_type_midriser hty] at hy
      simp only [mapNP, Option.some.injEq, NPVal.scalar.injEq] at hy
      rw [hqs] at hy hx
      rw [hlv] at hmem
      generalize hgen : p / (M : ℚ) = d at hdpos hx hy hmem hpdM
      subst hy
      unfold closedMidRiser at hmem
      rw [List.mem_map] at hmem
      obtain ⟨i, himem, hieq⟩ := hmem
      rw [List.mem_range] at himem
      set k : ℤ := ⌊x / d + 1 / 2⌋ with hk
      have hik : ((i : ℤ) - (M : ℤ)) = k := by
        have hcan := mul_left_cancel₀ (ne_of_gt hdpos) hieq
        exact_mod_cast hcan
      have hi2M : (i : ℤ) < 2 * (M : ℤ) := by exact_mod_cast himem
      rw [hpdM] at hx
      have hring : d * (M : ℚ) + d = ((M : ℚ) + 1) * d := by ring
      rcases lt_abs.mp hx with hpos | hneg
      · have hdiv : (M : ℚ) + 1 < x / d := by
          rw [lt_div_iff hdpos]
          linarith
        have hkge : (M : ℤ) + 1 ≤ k := by
          rw [hk]
          exact Int.le_floor.mpr (by push_cast; linarith)
        omega
      · have hdiv : x / d < -((M : ℚ) + 1) := by
          rw [div_lt_iff hdpos]
          linarith
        have hklt : k < -(M : ℤ) := by
          rw [hk]
          apply Int.floor_lt.mpr
          push_cast
          linarith
        omega
    · subst hm
      obtain ⟨hqs, hlv, hthr, hty⟩ := midtread_fields hM hu
      intro y hy hmem
      rw [call_type_midtread hty] at hy
      simp only [mapNP, Option.some.injEq, NPVal.scalar.injEq] at hy
      rw [hqs] at hy hx
      rw [hlv] at hmem
      generalize hgen : p / (M : ℚ) = d at hdpos hx hy hmem hpdM
      subst hy
      unfold closedMidTread at hmem
      rw [List.mem_map] at hmem
      obtain ⟨i, himem, hieq⟩ := hmem
      rw [List.mem_range] at himem
      set k : ℤ := ⌊x / d⌋ with hk
      have hik : ((i : ℤ) - (M : ℤ)) = k := by
        have hstrip : d * (((i : ℤ) - (M : ℤ) : ℤ) : ℚ) = d * (k : ℚ) := by
          have hexp : d * ((k : ℚ) + 1 / 2) = d * (k : ℚ) + d / 2 := by ring
          linarith [hieq, hexp]
        have hcan := mul_left_cancel₀ (ne_of_gt hdpos) hstrip
        exact_mod_cast hcan
      have hi2M : (i : ℤ) < 2 * (M : ℤ) := by exact_mod_cast himem
      rw [hpdM] at hx
      have hring : d * (M : ℚ) + d = ((M : ℚ) + 1) * d := by ring
      rcases lt_abs.mp hx with hpos | hneg
      · have hdiv : (M : ℚ) + 1 < x / d := by
          rw [lt_div_iff hdpos]
          linarith
        have hkge : (M : ℤ) + 1 ≤ k := by
          rw [hk]
          exact Int.le_floor.mpr (by push_cast; linarith)
        omega
      · have hdiv : x / d < -((M : ℚ) + 1) := by
          rw [div_lt_iff hdpos]
          linarith
        have hklt : k < -(M : ℤ) - 1 := by
          rw [hk]
          apply Int.floor_lt.mpr
          push_cast
          linarith
        omega
  · intro lv th q hq z
    obtain ⟨hql, hqt, hlen, _⟩ := scalar_mk_inv hq
    unfold ScalarQuantizer.quantizeElem
    apply getD_mem_of_lt
    have h1 : (q.thresholds.countP fun t => decide (t < z)) ≤ q.thresholds.length :=
      List.countP_le_length _
    have h2 : q.thresholds.length = th.length := by rw [hqt]
    have h3 : q.levels.length = lv.length := by rw [hql]
    omega

/-- C10 witness: the amended claim instantiated on the two-level mid-riser
quantizer at the out-of-range input `x = 3`. -/
theorem C10_closed_form_not_clamped_witness :
    (∀ y, uq2.call (.scalar 3) = some (.scalar y) → y ∉ uq2.levels) ∧
    (∀ (lv th : List ℚ) (q : ScalarQuantizer), ScalarQuantizer.mk? lv th = some q →
      ∀ z : ℚ, q.quantizeElem z ∈ q.levels) :=
  C10_closed_form_not_clamped 1 (by decide) 1 3 (by norm_num) "mid-riser"
    (Or.inl rfl) uq2 (by with_unfolding_all decide) (by with_unfolding_all decide)
